import Mathlib

/-!
Verification of the SDRdaemon core against its specification.

The development shallowly embeds the parts of the repository that the
verified properties speak about:

* the frame/block packaging geometry (README, "Data formats"),
* the meta-block CRC32 (modelled from the spec: the CRC implementation
  itself is not part of the source tree),
* the `Downsampler` DSP stage (modelled from the spec: only the header
  `include/Downsampler.h` is in the tree),
* the main worker loop, the signal handler and the shutdown sequence of
  `main.cpp`,
* the sample buffer (modelled from the spec: `DataBuffer.h` is not in the
  tree) and the output thread loop `write_output_data` of `main.cpp`,
* `parse_int` of `main.cpp`, together with a model of C `strtol`,
* the Cauchy MDS erasure code (modelled from the spec: the CM256cc
  library is an external dependency).
-/

/-! ## IQ samples and frame geometry (README, "Data formats" / "Packaging") -/

/-- An IQ sample: a pair (I, Q) of signed integers (8 or 16 bit on the wire;
the width plays no role in the properties proved here). -/
abbrev IQSample := Int × Int

/-- UDP payload size of one block in bytes (README: "All blocks have a fixed
size of 512 bytes"). -/
def blockSizeBytes : ℕ := 512

/-- Size of the block header in bytes: 2 bytes frame count, 1 byte block
count, 1 byte filler (README, "Packaging"). -/
def blockHeaderBytes : ℕ := 4

/-- Body size of a block: the 512-byte payload minus the 4-byte header. -/
def blockBodyBytes : ℕ := blockSizeBytes - blockHeaderBytes

/-- Number of data blocks per frame, including the meta block (README:
"frames of 128 fixed size data blocks"). -/
def dataBlocksPerFrame : ℕ := 128

/-- Number of sample-carrying blocks per frame: all data blocks except the
meta block ("block zero"). -/
def sampleBlocksPerFrame : ℕ := dataBlocksPerFrame - 1

/-- Number of IQ samples carried by one sample block for a given number of
bytes per sample-pair component: each IQ pair occupies `2 * bytesPerSample`
bytes of the 508-byte body. -/
def samplesPerBlock (bytesPerSample : ℕ) : ℕ :=
  blockBodyBytes / (2 * bytesPerSample)

/-- Number of IQ samples conveyed by one complete frame. -/
def samplesPerFrame (bytesPerSample : ℕ) : ℕ :=
  sampleBlocksPerFrame * samplesPerBlock bytesPerSample

/-! ## Downsampler

Modelled from the spec: only the declaration `include/Downsampler.h` is in
the source tree; the implementation of `Downsampler::process` is missing.
The spec (§4.2) prescribes a cascade of halfband stages, one per unit of the
log2 decimation factor, preceded for `infra`/`supra` by an exact Fs/4 mixer
implemented as a 4-phase lookup `{(I,Q), (Q,−I), (−I,−Q), (−Q,I)}` cycling
with the sample index modulo 4; factor 0 is a pass-through.  The halfband
kernel itself is an implementation-free choice in the spec; here one arm is
the identity delay and the other a 2-tap symmetric kernel, which is enough
for the stated contract (output length and pass-through). -/

/-- Center frequency relative position when downsampling
(`include/Downsampler.h`, `fcPos_t`). -/
inductive fcPos_t where
  | FC_POS_INFRA
  | FC_POS_SUPRA
  | FC_POS_CENTER
deriving DecidableEq

/-- The `Downsampler` state (`include/Downsampler.h`): log2 decimation
factor `m_decim` and center-frequency position `m_fcPos`.  The C++ default
constructor arguments are `decim = 0`, `fcPos = FC_POS_CENTER`. -/
structure Downsampler where
  m_decim : ℕ
  m_fcPos : fcPos_t
deriving DecidableEq

/-- The default-constructed `Downsampler` (header default arguments). -/
def Downsampler.default : Downsampler :=
  { m_decim := 0, m_fcPos := .FC_POS_CENTER }

/-- One phase of the exact Fs/4 mixer: multiplication by the cycling
sequence {1, −j, −1, j} (supra) or {1, j, −1, −j} (infra). -/
def fs4Phase (supra : Bool) (n : ℕ) (s : IQSample) : IQSample :=
  match n % 4 with
  | 0 => s
  | 1 => if supra then (s.2, -s.1) else (-s.2, s.1)
  | 2 => (-s.1, -s.2)
  | _ => if supra then (-s.2, s.1) else (s.2, -s.1)

/-- The fcpos translation applied ahead of the first halfband stage:
no translation for `center`, an Fs/4 mixer otherwise. -/
def fcMix (fc : fcPos_t) (l : List IQSample) : List IQSample :=
  match fc with
  | .FC_POS_CENTER => l
  | .FC_POS_INFRA => l.enum.map fun p => fs4Phase false p.1 p.2
  | .FC_POS_SUPRA => l.enum.map fun p => fs4Phase true p.1 p.2

/-- One halfband decimation stage: two input samples produce one output
sample (identity arm plus a 2-tap symmetric kernel arm). -/
def hbStage : List IQSample → List IQSample
  | a :: b :: rest => ((a.1 + b.1) / 2, (a.2 + b.2) / 2) :: hbStage rest
  | _ => []

/-- `Downsampler::process`, modelled from the spec (§4.2): factor 0 is a
pass-through; otherwise the fcpos translation followed by `m_decim`
halfband stages, each halving the sample count. -/
def Downsampler.process (dn : Downsampler) (samples_in : List IQSample) :
    List IQSample :=
  if dn.m_decim = 0 then samples_in
  else hbStage^[dn.m_decim] (fcMix dn.m_fcPos samples_in)

theorem fcMix_length (fc : fcPos_t) (l : List IQSample) :
    (fcMix fc l).length = l.length := by
  cases fc <;> simp [fcMix]

theorem hbStage_length : ∀ l : List IQSample, (hbStage l).length = l.length / 2
  | [] => by simp [hbStage]
  | [_] => by simp [hbStage]
  | a :: b :: rest => by
      simp only [hbStage, List.length_cons, hbStage_length rest]
      omega

theorem hbStage_iterate_length (n : ℕ) (l : List IQSample) :
    (hbStage^[n] l).length = l.length / 2 ^ n := by
  induction n generalizing l with
  | zero => simp
  | succ n ih =>
      rw [Function.iterate_succ_apply, ih, hbStage_length,
        Nat.div_div_eq_div_mul, pow_succ, mul_comm 2 (2 ^ n), mul_comm (2 ^ n) 2]

theorem Downsampler.process_length (dn : Downsampler) (l : List IQSample) :
    (dn.process l).length = l.length / 2 ^ dn.m_decim := by
  unfold Downsampler.process
  by_cases h : dn.m_decim = 0
  · simp [h]
  · rw [if_neg h, hbStage_iterate_length, fcMix_length]

theorem Downsampler.process_decim_zero (dn : Downsampler)
    (h : dn.m_decim = 0) (l : List IQSample) : dn.process l = l := by
  unfold Downsampler.process
  rw [if_pos h]

/-! ## The main worker loop of `main.cpp`

The main loop (`main.cpp`, lines 472-512) repeats: check the stop flag;
warn once if the source buffer holds more than `10 * ifrate` queued
samples; pull the next vector from the source buffer (an empty vector
signals end of stream and breaks the loop); downsample it; and, except for
the very first block (`block > 0` guard), push the result to the output
buffer.  The embedding drives the loop from a trace of per-iteration
observations (queued-sample count at the overflow check, pulled vector)
and a stop-flag schedule indexed by the iteration counter `block`. -/

/-- Observations of one main-loop iteration: the queued-sample count of the
source buffer at the overflow check, and the vector returned by `pull()`. -/
structure LoopIn where
  queued : ℕ
  pulled : List IQSample
deriving DecidableEq

/-- Result of a run of the main loop: vectors pushed to the output buffer,
vectors passed through the downsampler, number of overflow warnings
printed, number of loop bodies entered, and the iteration observations
actually consumed. -/
structure RunResult where
  outputs : List (List IQSample)
  processed : List (List IQSample)
  warnings : ℕ
  iters : ℕ
  consumed : List LoopIn
deriving DecidableEq

/-- The main loop of `main.cpp` (lines 467-512).  `warned` is the
`inbuf_length_warning` flag (initially `false`); `flag` is the value of the
`stop_flag` atomic as observed at the top of iteration `block`. -/
def mainRun (dn : Downsampler) (ifrate : ℕ) (flag : ℕ → Bool) :
    ℕ → Bool → List LoopIn → RunResult
  | _, _, [] => ⟨[], [], 0, 0, []⟩
  | block, warned, li :: rest =>
    if flag block then ⟨[], [], 0, 0, []⟩
    else
      let overrun := decide (10 * ifrate < li.queued)
      let logged := !warned && overrun
      let warned' := warned || overrun
      if li.pulled.isEmpty then
        ⟨[], [], if logged then 1 else 0, 1, [li]⟩
      else
        let out := dn.process li.pulled
        let r := mainRun dn ifrate flag (block + 1) warned' rest
        ⟨if 0 < block then out :: r.outputs else r.outputs,
         out :: r.processed,
         (if logged then 1 else 0) + r.warnings,
         r.iters + 1,
         li :: r.consumed⟩

/-- The downsampler constructed by `main` (`main.cpp` line 453,
`Downsampler dn;`).  It is default-constructed: the startup configuration
string `config_str` is passed to `srcsdr->configure` (line 417) only and
never reaches the downsampler, which the parameter makes explicit. -/
def mainDownsampler (_config_str : String) : Downsampler :=
  Downsampler.default

/-- The signal handler `handle_sigterm` (`main.cpp` lines 96-106): it
stores `true` into the process-wide atomic `stop_flag`, whatever the
previous value was. -/
def handle_sigterm (_stop_flag : Bool) : Bool := true

/-- Shutdown actions after the main loop, in program order. -/
inductive ShutdownAction where
  | deviceStop
  | pushEnd
  | joinOutput
deriving DecidableEq

/-- `outputbuf_samples` of `main.cpp` (line 373): a hard-coded constant, so
the buffered-output branch (background output thread, `push_end`, `join`)
is always taken. -/
def outputbuf_samples : ℕ := 250000

/-- The shutdown sequence executed after the main loop exits (`main.cpp`
lines 518-524): stop the device, then - since `outputbuf_samples > 0` -
signal `push_end()` on the output buffer and join the output thread. -/
def mainShutdownSequence : List ShutdownAction :=
  [.deviceStop] ++
    (if 0 < outputbuf_samples then [.pushEnd, .joinOutput] else [])

/-- The value returned by `main` on the normal path (`main.cpp` line 528). -/
def mainExitCode : ℕ := 0

/-! Auxiliary facts about `mainRun`. -/

theorem mainRun_nil (dn : Downsampler) (ifrate : ℕ) (flag : ℕ → Bool)
    (block : ℕ) (warned : Bool) :
    mainRun dn ifrate flag block warned [] = ⟨[], [], 0, 0, []⟩ := by
  simp [mainRun]

/-- Everything but the warning counter is independent of the
`inbuf_length_warning` state. -/
theorem mainRun_warned_independent (dn : Downsampler) (ifrate : ℕ)
    (flag : ℕ → Bool) : ∀ (ins : List LoopIn) (block : ℕ) (w w' : Bool),
    (mainRun dn ifrate flag block w ins).outputs
        = (mainRun dn ifrate flag block w' ins).outputs ∧
    (mainRun dn ifrate flag block w ins).processed
        = (mainRun dn ifrate flag block w' ins).processed ∧
    (mainRun dn ifrate flag block w ins).iters
        = (mainRun dn ifrate flag block w' ins).iters ∧
    (mainRun dn ifrate flag block w ins).consumed
        = (mainRun dn ifrate flag block w' ins).consumed
  | [], _, _, _ => by simp [mainRun]
  | li :: rest, block, w, w' => by
      by_cases hf : flag block
      · simp [mainRun, hf]
      · by_cases hp : li.pulled.isEmpty
        · simp [mainRun, hf, hp]
        · have ih := mainRun_warned_independent dn ifrate flag rest (block + 1)
            (w || decide (10 * ifrate < li.queued))
            (w' || decide (10 * ifrate < li.queued))
          simp only [mainRun, hf, Bool.false_eq_true, if_false, hp, if_neg,
            Bool.not_eq_true] at ih ⊢
          exact ⟨by rw [ih.1], by rw [ih.2.1], by rw [ih.2.2.1], by rw [ih.2.2.2]⟩

/-- Once the warning flag is set, no further warning is ever printed. -/
theorem mainRun_warnings_of_warned (dn : Downsampler) (ifrate : ℕ)
    (flag : ℕ → Bool) : ∀ (ins : List LoopIn) (block : ℕ),
    (mainRun dn ifrate flag block true ins).warnings = 0
  | [], _ => by simp [mainRun]
  | li :: rest, block => by
      by_cases hf : flag block
      · simp [mainRun, hf]
      · by_cases hp : li.pulled.isEmpty
        · simp [mainRun, hf, hp]
        · have ih := mainRun_warnings_of_warned dn ifrate flag rest (block + 1)
          simp [mainRun, hf, hp, ih]

/-- Starting with the warning flag clear, exactly one warning is printed
when some consumed iteration sees the source buffer beyond `10 * ifrate`
queued samples, and none otherwise. -/
theorem mainRun_warnings_eq (dn : Downsampler) (ifrate : ℕ)
    (flag : ℕ → Bool) : ∀ (ins : List LoopIn) (block : ℕ),
    (mainRun dn ifrate flag block false ins).warnings =
      (if (mainRun dn ifrate flag block false ins).consumed.any
          (fun li => decide (10 * ifrate < li.queued)) then 1 else 0)
  | [], _ => by simp [mainRun]
  | li :: rest, block => by
      by_cases hf : flag block
      · simp [mainRun, hf]
      · by_cases hp : li.pulled.isEmpty
        · by_cases ho : 10 * ifrate < li.queued
          · simp [mainRun, hf, hp, ho]
          · simp [mainRun, hf, hp, ho]
        · by_cases ho : 10 * ifrate < li.queued
          · have hw := mainRun_warnings_of_warned dn ifrate flag rest (block + 1)
            simp [mainRun, hf, hp, ho, hw]
          · have ih := mainRun_warnings_eq dn ifrate flag rest (block + 1)
            simp [mainRun, hf, hp, ho, ih]

/-- Every pulled vector of the maximal nonempty prefix goes through the
downsampler, in order. -/
theorem mainRun_processed_eq (dn : Downsampler) (ifrate : ℕ) :
    ∀ (ins : List LoopIn) (block : ℕ) (warned : Bool),
    (mainRun dn ifrate (fun _ => false) block warned ins).processed =
      ((ins.map LoopIn.pulled).takeWhile (fun v => !v.isEmpty)).map dn.process
  | [], _, _ => by simp [mainRun]
  | li :: rest, block, warned => by
      by_cases hp : li.pulled.isEmpty
      · simp [mainRun, hp, List.takeWhile_cons]
      · have ih := mainRun_processed_eq dn ifrate rest (block + 1)
          (warned || decide (10 * ifrate < li.queued))
        simp [mainRun, hp, List.takeWhile_cons, ih]

/-- From the second iteration on, every processed vector is pushed to the
output buffer. -/
theorem mainRun_outputs_of_pos (dn : Downsampler) (ifrate : ℕ)
    (flag : ℕ → Bool) : ∀ (ins : List LoopIn) (block : ℕ) (warned : Bool),
    0 < block →
    (mainRun dn ifrate flag block warned ins).outputs =
      (mainRun dn ifrate flag block warned ins).processed
  | [], _, _, _ => by simp [mainRun]
  | li :: rest, block, warned, hb => by
      by_cases hf : flag block
      · simp [mainRun, hf]
      · by_cases hp : li.pulled.isEmpty
        · simp [mainRun, hf, hp]
        · have ih := mainRun_outputs_of_pos dn ifrate flag rest (block + 1)
            (warned || decide (10 * ifrate < li.queued)) (Nat.succ_pos block)
          simp [mainRun, hf, hp, ih, hb]

/-- Starting at block 0, the vectors pushed to the output buffer are
exactly the processed vectors without the first one. -/
theorem mainRun_outputs_zero (dn : Downsampler) (ifrate : ℕ)
    (flag : ℕ → Bool) (ins : List LoopIn) (warned : Bool) :
    (mainRun dn ifrate flag 0 warned ins).outputs =
      ((mainRun dn ifrate flag 0 warned ins).processed).drop 1 := by
  match ins with
  | [] => simp [mainRun]
  | li :: rest =>
      by_cases hf : flag 0
      · simp [mainRun, hf]
      · by_cases hp : li.pulled.isEmpty
        · simp [mainRun, hf, hp]
        · have h := mainRun_outputs_of_pos dn ifrate flag rest 1
            (warned || decide (10 * ifrate < li.queued)) Nat.one_pos
          simp [mainRun, hf, hp, h]

/-- No more vectors are pushed than loop bodies entered. -/
theorem mainRun_outputs_length_le_iters (dn : Downsampler) (ifrate : ℕ)
    (flag : ℕ → Bool) : ∀ (ins : List LoopIn) (block : ℕ) (warned : Bool),
    (mainRun dn ifrate flag block warned ins).outputs.length ≤
      (mainRun dn ifrate flag block warned ins).iters
  | [], _, _ => by simp [mainRun]
  | li :: rest, block, warned => by
      by_cases hf : flag block
      · simp [mainRun, hf]
      · by_cases hp : li.pulled.isEmpty
        · simp [mainRun, hf, hp]
        · have ih := mainRun_outputs_length_le_iters dn ifrate flag rest
            (block + 1) (warned || decide (10 * ifrate < li.queued))
          by_cases hb : 0 < block
          · simp only [mainRun, hf, Bool.false_eq_true, if_false, hp, if_neg,
              Bool.not_eq_true, hb, if_pos, List.length_cons]
            omega
          · simp only [mainRun, hf, Bool.false_eq_true, if_false, hp, if_neg,
              Bool.not_eq_true, hb, if_false]
            omega

/-- If the stop flag is set from iteration `t` on, the loop enters at most
`t - block` more bodies: the stop flag is observed with latency one
iteration. -/
theorem mainRun_iters_le (dn : Downsampler) (ifrate : ℕ) (flag : ℕ → Bool)
    (hmono : ∀ m n, m ≤ n → flag m = true → flag n = true)
    (t : ℕ) (ht : flag t = true) :
    ∀ (ins : List LoopIn) (block : ℕ) (warned : Bool),
    (mainRun dn ifrate flag block warned ins).iters ≤ t - block
  | [], _, _ => by simp [mainRun]
  | li :: rest, block, warned => by
      by_cases hf : flag block
      · simp [mainRun, hf]
      · have hbt : block < t := by
          by_contra hbt
          exact hf (hmono t block (Nat.le_of_not_lt hbt) ht)
        by_cases hp : li.pulled.isEmpty
        · simp only [mainRun, hf, Bool.false_eq_true, if_false, hp, if_pos]
          omega
        · have ih := mainRun_iters_le dn ifrate flag hmono t ht rest
            (block + 1) (warned || decide (10 * ifrate < li.queued))
          simp only [mainRun, hf, Bool.false_eq_true, if_false, hp, if_neg,
            Bool.not_eq_true]
          omega

/-! ## Sample buffer and output thread

Modelled from the spec: `DataBuffer.h` is not in the source tree (only its
uses in `main.cpp` are).  Spec §4.1: a bounded FIFO of sample vectors with
`push`, `pull`, `push_end`; `pull()` blocks until a vector is available or
end is signalled; on end it returns an empty vector.  Blocking is modelled
by `pull` returning `none`: the caller stays suspended and no value is
produced. -/

/-- The sample buffer: FIFO of sample vectors plus the end-of-stream mark
set by `push_end()`. -/
structure DataBuffer where
  m_queue : List (List IQSample)
  m_end : Bool
deriving DecidableEq

/-- Modelled from the spec: `pull()` returns the front vector when one is
available, returns an empty vector when the queue is drained and end was
signalled, and otherwise blocks (`none`). -/
def DataBuffer.pull (buf : DataBuffer) : Option (List IQSample × DataBuffer) :=
  match buf.m_queue with
  | v :: rest => some (v, ⟨rest, buf.m_end⟩)
  | [] => if buf.m_end then some ([], buf) else none

/-- Modelled from the spec: `push(vector)` appends at the back. -/
def DataBuffer.push (buf : DataBuffer) (v : List IQSample) : DataBuffer :=
  ⟨buf.m_queue ++ [v], buf.m_end⟩

/-- Modelled from the spec: `push_end()` marks the end of the stream. -/
def DataBuffer.push_end (buf : DataBuffer) : DataBuffer :=
  ⟨buf.m_queue, true⟩

/-- Modelled from the spec: the end condition observed by the output
thread - the queue is drained and end was signalled. -/
def DataBuffer.pull_end_reached (buf : DataBuffer) : Bool :=
  buf.m_queue.isEmpty && buf.m_end

/-- One turn of the output thread loop `write_output_data` (`main.cpp`
lines 62-92). -/
inductive OutStep where
  | exited
  | wrote (samples : List IQSample) (buf : DataBuffer)
  | blocked
deriving DecidableEq

/-- The body of `write_output_data` (`main.cpp` lines 66-91): leave the
loop when the stop flag is set; wait on an empty buffer; leave the loop
when `pull_end_reached()` holds; otherwise pull a vector and write it to
the UDP output. -/
def write_output_step (stop_flag : Bool) (buf : DataBuffer) : OutStep :=
  if stop_flag then .exited
  else if buf.pull_end_reached then .exited
  else
    match buf.pull with
    | some (v, buf') => .wrote v buf'
    | none => .blocked

/-! ## `parse_int` of `main.cpp` (lines 189-204)

`parse_int` calls C `strtol` with base 10, rejects the input when no
characters were converted, optionally consumes a `'k'` unit suffix
multiplying the value by 1000 (guarded by
`t > INT_MIN / 1000 && t < INT_MAX / 1000`), and finally requires that the
whole string was consumed and the value fits in `int`.  The `strtol` model
follows C99: optional whitespace, an optional single sign, a run of
decimal digits, clamping to the `long` range. -/

/-- C `isspace` in the default locale. -/
def isCSpace (c : Char) : Bool :=
  c = ' ' || c = '\t' || c = '\n' || c = Char.ofNat 11 || c = Char.ofNat 12
    || c = '\r'

/-- Value of a run of decimal digits. -/
def digitsToNat (ds : List Char) : ℕ :=
  ds.foldl (fun a c => 10 * a + (c.toNat - '0'.toNat)) 0

/-- `LONG_MIN` on the 64-bit targets the daemon runs on. -/
def LONG_MIN : Int := -(2 ^ 63)

/-- `LONG_MAX` on the 64-bit targets the daemon runs on. -/
def LONG_MAX : Int := 2 ^ 63 - 1

/-- `INT_MIN` (32-bit `int`). -/
def INT_MIN : Int := -2147483648

/-- `INT_MAX` (32-bit `int`). -/
def INT_MAX : Int := 2147483647

/-- The sign prefix handling of `strtol`: at most one `'+'` or `'-'` is
consumed. -/
def signSplit (l : List Char) : Bool × List Char :=
  match l with
  | [] => (false, [])
  | c :: r => if c = '-' then (true, r) else if c = '+' then (false, r) else (false, l)

/-- Clamping of an out-of-range conversion result to the `long` range
(C99 `strtol` returns `LONG_MIN`/`LONG_MAX` on overflow). -/
def clampLong (neg : Bool) (n : ℕ) : Int :=
  max LONG_MIN (min LONG_MAX (if neg then -(n : Int) else (n : Int)))

/-- Result of the `strtol` model: the converted value, the suffix starting
at `endp`, and whether any characters were converted (`endp != s`). -/
structure StrtolResult where
  value : Int
  rest : List Char
  converted : Bool
deriving DecidableEq

/-- Model of C `strtol(s, &endp, 10)`. -/
def strtol10 (s : List Char) : StrtolResult :=
  let afterWs := s.dropWhile isCSpace
  let p := signSplit afterWs
  let ds := p.2.takeWhile Char.isDigit
  let rest := p.2.dropWhile Char.isDigit
  if ds.isEmpty then ⟨0, s, false⟩
  else ⟨clampLong p.1 (digitsToNat ds), rest, true⟩

/-- `parse_int` of `main.cpp` (lines 189-204), with the out-parameter
write modelled by the `Option` result. -/
def parse_int (s : List Char) (allow_unit : Bool) : Option Int :=
  let r := strtol10 s
  if r.converted = false then none
  else
    let q :=
      if allow_unit ∧ r.rest.head? = some 'k'
          ∧ Int.tdiv INT_MIN 1000 < r.value ∧ r.value < Int.tdiv INT_MAX 1000
      then (r.value * 1000, r.rest.tail)
      else (r.value, r.rest)
    if q.2 = [] ∧ INT_MIN ≤ q.1 ∧ q.1 ≤ INT_MAX then some q.1 else none

/-- `parse_int` with the C out-parameter made explicit: on failure the
result is `false` and `v` keeps its previous value. -/
def parse_int_ref (s : List Char) (allow_unit : Bool) (v : Int) : Bool × Int :=
  match parse_int s allow_unit with
  | some t => (true, t)
  | none => (false, v)

/-- The behaviour claimed for `parse_int`, formalized word for word: the
input is a decimal integer (optional sign, digits) within `int` range,
optionally followed by a `'k'` suffix multiplying by 1000 when
`allow_unit` is true and no `int` overflow results. -/
def claimedParse (s : List Char) (allow_unit : Bool) : Option Int :=
  let p := signSplit s
  let ds := p.2.takeWhile Char.isDigit
  let suffix := p.2.dropWhile Char.isDigit
  if ds.isEmpty then none
  else
    let t : Int := if p.1 then -(digitsToNat ds : Int) else (digitsToNat ds : Int)
    if suffix = [] then
      if INT_MIN ≤ t ∧ t ≤ INT_MAX then some t else none
    else if suffix = ['k'] ∧ allow_unit then
      if INT_MIN ≤ t * 1000 ∧ t * 1000 ≤ INT_MAX then some (t * 1000) else none
    else none

/-- The amended behaviour of `parse_int`, as a declarative decomposition of
the input: optional C whitespace, an optional single sign, a nonempty run
of decimal digits whose value is clamped to the `long` range, and either
nothing more - value within `int` range - or, when `allow_unit` holds, a
final `'k'` with the unmultiplied value strictly between `INT_MIN / 1000`
and `INT_MAX / 1000`. -/
def AmendedParseSpec (s : List Char) (allow_unit : Bool) (v : Int) : Prop :=
  ∃ w sgn ds suffix : List Char,
    s = w ++ sgn ++ ds ++ suffix ∧
    (∀ c ∈ w, isCSpace c = true) ∧
    (sgn = [] ∨ sgn = ['+'] ∨ sgn = ['-']) ∧
    ds ≠ [] ∧ (∀ c ∈ ds, c.isDigit = true) ∧
    ((suffix = [] ∧ INT_MIN ≤ clampLong (sgn = ['-'] : Bool) (digitsToNat ds)
        ∧ clampLong (sgn = ['-'] : Bool) (digitsToNat ds) ≤ INT_MAX
        ∧ v = clampLong (sgn = ['-'] : Bool) (digitsToNat ds)) ∨
      (suffix = ['k'] ∧ allow_unit = true
        ∧ Int.tdiv INT_MIN 1000 < clampLong (sgn = ['-'] : Bool) (digitsToNat ds)
        ∧ clampLong (sgn = ['-'] : Bool) (digitsToNat ds) < Int.tdiv INT_MAX 1000
        ∧ v = clampLong (sgn = ['-'] : Bool) (digitsToNat ds) * 1000))

/-! ## Meta-block CRC32

Modelled from the spec: the CRC32 implementation and the meta block
writer are part of the UDP sink, which is not in the source tree.  Spec:
"Meta CRC32 uses the IEEE 802.3 polynomial (0xEDB88320 reflected),
initial 0xFFFFFFFF, final XOR 0xFFFFFFFF", computed over the first 20
bytes of the meta body and stored little-endian at offset 20.  The CRC is
computed bit-serially, least significant bit of each byte first. -/

/-- The reflected IEEE 802.3 CRC32 polynomial. -/
def CRC32_POLY : ℕ := 0xEDB88320

/-- One bit of the reflected CRC32 computation: XOR the input bit into
bit 0 of the state, shift right, and reduce by the polynomial when a one
fell out. -/
def crcStep (s : ℕ) (b : Bool) : ℕ :=
  ((s ^^^ (if b then 1 else 0)) >>> 1) ^^^
    (if (s ^^^ (if b then 1 else 0)).testBit 0 then CRC32_POLY else 0)

/-- CRC32 state after feeding a list of bits. -/
def crcBits (s : ℕ) (bs : List Bool) : ℕ := bs.foldl crcStep s

/-- The eight bits of a byte, least significant first. -/
def byteBits (x : ℕ) : List Bool := (List.range 8).map x.testBit

/-- The bit stream of a byte sequence. -/
def bytesBits (bytes : List ℕ) : List Bool :=
  bytes.foldr (fun x acc => byteBits x ++ acc) []

/-- CRC32 of a byte sequence: initial value 0xFFFFFFFF, final XOR
0xFFFFFFFF. -/
def crc32 (bytes : List ℕ) : ℕ :=
  crcBits 0xFFFFFFFF (bytesBits bytes) ^^^ 0xFFFFFFFF

/-- The bit list of length `n` that is set exactly at position `i`. -/
def oneBitAt (n i : ℕ) : List Bool :=
  (List.range n).map (fun m => decide (m = i))

theorem xor_shiftRight_one (a b : ℕ) :
    (a ^^^ b) >>> 1 = (a >>> 1) ^^^ (b >>> 1) := by
  apply Nat.eq_of_testBit_eq
  intro i
  simp [Nat.testBit_shiftRight, Nat.testBit_xor]

theorem nat_xor_left_comm (a b c : ℕ) :
    a ^^^ (b ^^^ c) = b ^^^ (a ^^^ c) := by
  rw [← Nat.xor_assoc, Nat.xor_comm a b, Nat.xor_assoc]

theorem nat_xor_cancel_left (a b : ℕ) : a ^^^ (a ^^^ b) = b := by
  rw [← Nat.xor_assoc, Nat.xor_self, Nat.zero_xor]

/-- The CRC bit step is GF(2)-linear in state and input bit jointly. -/
theorem crcStep_xor (s t : ℕ) (b c : Bool) :
    crcStep (s ^^^ t) (xor b c) = crcStep s b ^^^ crcStep t c := by
  unfold crcStep
  have hbif : (if (xor b c) then 1 else 0 : ℕ)
      = (if b then 1 else 0) ^^^ (if c then 1 else 0) := by
    cases b <;> cases c <;> rfl
  rw [hbif]
  have harr : s ^^^ t ^^^ ((if b then 1 else 0) ^^^ (if c then 1 else 0))
      = (s ^^^ (if b then 1 else 0)) ^^^ (t ^^^ (if c then 1 else 0)) := by
    simp only [Nat.xor_assoc, Nat.xor_comm, nat_xor_left_comm]
  simp only [harr]
  rw [xor_shiftRight_one, Nat.testBit_xor]
  cases hu : (s ^^^ (if b then 1 else 0)).testBit 0 <;>
    cases hw : (t ^^^ (if c then 1 else 0)).testBit 0 <;>
    simp [Nat.xor_assoc, Nat.xor_comm, nat_xor_left_comm, nat_xor_cancel_left,
      Nat.xor_self, Nat.xor_zero, Nat.zero_xor]

/-- The CRC state update is GF(2)-linear over whole bit streams. -/
theorem crcBits_xor : ∀ (bs cs : List Bool) (s t : ℕ),
    bs.length = cs.length →
    crcBits (s ^^^ t) (List.zipWith xor bs cs)
      = crcBits s bs ^^^ crcBits t cs
  | [], [], s, t, _ => by simp [crcBits]
  | [], _ :: _, _, _, h => by simp at h
  | _ :: _, [], _, _, h => by simp at h
  | b :: bs, c :: cs, s, t, h => by
      have h' : bs.length = cs.length := by simpa using h
      simp only [List.zipWith_cons_cons, crcBits, List.foldl_cons]
      rw [crcStep_xor]
      exact crcBits_xor bs cs _ _ h'

theorem zipWith_xor_replicate_false :
    ∀ l : List Bool, List.zipWith xor l (List.replicate l.length false) = l
  | [] => rfl
  | b :: l => by
      simp [List.replicate_succ, zipWith_xor_replicate_false l]

theorem zipWith_map_same {α β γ δ : Type} (f : β → γ → δ) (g : α → β)
    (h : α → γ) : ∀ l : List α,
    List.zipWith f (l.map g) (l.map h) = l.map (fun a => f (g a) (h a))
  | [] => rfl
  | a :: l => by simp [zipWith_map_same f g h l]

theorem map_false_replicate (l : List ℕ) :
    l.map (fun _ => (false : Bool)) = List.replicate l.length false := by
  induction l with
  | nil => rfl
  | cons a l ih => simp [ih, List.replicate_succ]

theorem byteBits_length (x : ℕ) : (byteBits x).length = 8 := by
  simp [byteBits]

theorem oneBitAt_length (n i : ℕ) : (oneBitAt n i).length = n := by
  simp [oneBitAt]

theorem bytesBits_cons (b : ℕ) (msg : List ℕ) :
    bytesBits (b :: msg) = byteBits b ++ bytesBits msg := rfl

theorem bytesBits_length : ∀ msg : List ℕ, (bytesBits msg).length = 8 * msg.length
  | [] => rfl
  | b :: msg => by
      rw [bytesBits_cons, List.length_append, byteBits_length,
        bytesBits_length msg, List.length_cons]
      ring

/-- Flipping bit `k` of a byte flips exactly position `k` of its bit
list. -/
theorem byteBits_flip (x k : ℕ) :
    byteBits (x ^^^ 2 ^ k)
      = List.zipWith xor (byteBits x) (oneBitAt 8 k) := by
  unfold byteBits oneBitAt
  rw [zipWith_map_same]
  apply List.map_congr_left
  intro m _
  rw [Nat.testBit_xor, Nat.testBit_two_pow]
  congr 1
  simp [eq_comm]

theorem oneBitAt_add_lt (m n i : ℕ) (h : i < m) :
    oneBitAt (m + n) i = oneBitAt m i ++ List.replicate n false := by
  unfold oneBitAt
  rw [List.range_add, List.map_append, List.map_map]
  congr 1
  have hfn : ((fun x => decide (x = i)) ∘ fun x => m + x)
      = fun _ : ℕ => (false : Bool) := by
    funext x
    simp only [Function.comp_apply, decide_eq_false_iff_not]
    omega
  rw [hfn, map_false_replicate, List.length_range]

theorem oneBitAt_add_ge (m n i : ℕ) (h : m ≤ i) :
    oneBitAt (m + n) i = List.replicate m false ++ oneBitAt n (i - m) := by
  unfold oneBitAt
  rw [List.range_add, List.map_append, List.map_map]
  congr 1
  · have : ∀ x ∈ List.range m, decide (x = i) = (false : Bool) := by
      intro x hx
      rw [List.mem_range] at hx
      simp only [decide_eq_false_iff_not]
      omega
    rw [List.map_congr_left this, map_false_replicate, List.length_range]
  · have hfn : ((fun x => decide (x = i)) ∘ fun x => m + x)
        = fun x : ℕ => decide (x = i - m) := by
      funext x
      simp only [Function.comp_apply]
      have hiff : (m + x = i) ↔ (x = i - m) := by omega
      simp [hiff]
    rw [hfn]

/-- Flipping bit `k` of byte `j` flips exactly position `8 j + k` of the
byte sequence's bit stream. -/
theorem bytesBits_set : ∀ (msg : List ℕ) (j k : ℕ), j < msg.length → k < 8 →
    bytesBits (msg.set j (msg.getD j 0 ^^^ 2 ^ k))
      = List.zipWith xor (bytesBits msg) (oneBitAt (8 * msg.length) (8 * j + k))
  | [], j, k, hj, _ => absurd hj (by simp)
  | b :: msg, 0, k, hj, hk => by
      rw [List.set_cons_zero, List.getD_cons_zero, bytesBits_cons, bytesBits_cons,
        List.length_cons, show 8 * (msg.length + 1) = 8 + 8 * msg.length from by ring,
        show 8 * 0 + k = k from by ring, oneBitAt_add_lt 8 (8 * msg.length) k hk,
        List.zipWith_append _ _ _ _ _ (by rw [byteBits_length, oneBitAt_length]),
        byteBits_flip, ← bytesBits_length msg, zipWith_xor_replicate_false]
  | b :: msg, j + 1, k, hj, hk => by
      have hj' : j < msg.length := by
        simpa using hj
      rw [List.set_cons_succ, List.getD_cons_succ, bytesBits_cons, bytesBits_cons,
        List.length_cons, show 8 * (msg.length + 1) = 8 + 8 * msg.length from by ring,
        show 8 * (j + 1) + k = 8 + (8 * j + k) from by ring,
        oneBitAt_add_ge 8 (8 * msg.length) (8 + (8 * j + k)) (by omega),
        show 8 + (8 * j + k) - 8 = 8 * j + k from by omega,
        List.zipWith_append _ _ _ _ _ (by rw [byteBits_length, List.length_replicate]),
        show (List.replicate 8 false) = List.replicate (byteBits b).length false from
          by rw [byteBits_length],
        zipWith_xor_replicate_false, bytesBits_set msg j k hj' hk]

/-- Flipping bit `k` of byte `j` XORs the CRC32 with a fixed nonzero
syndrome determined by the bit position. -/
theorem crc32_set_bit (msg : List ℕ) (j k : ℕ) (hj : j < msg.length)
    (hk : k < 8) :
    crc32 (msg.set j (msg.getD j 0 ^^^ 2 ^ k))
      = crc32 msg ^^^ crcBits 0 (oneBitAt (8 * msg.length) (8 * j + k)) := by
  unfold crc32
  rw [bytesBits_set msg j k hj hk]
  have hlen : (bytesBits msg).length = (oneBitAt (8 * msg.length) (8 * j + k)).length := by
    rw [bytesBits_length, oneBitAt_length]
  calc crcBits 0xFFFFFFFF
          (List.zipWith xor (bytesBits msg) (oneBitAt (8 * msg.length) (8 * j + k)))
        ^^^ 0xFFFFFFFF
      = crcBits (0xFFFFFFFF ^^^ 0)
          (List.zipWith xor (bytesBits msg) (oneBitAt (8 * msg.length) (8 * j + k)))
        ^^^ 0xFFFFFFFF := by rw [Nat.xor_zero]
    _ = (crcBits 0xFFFFFFFF (bytesBits msg)
          ^^^ crcBits 0 (oneBitAt (8 * msg.length) (8 * j + k))) ^^^ 0xFFFFFFFF := by
        rw [crcBits_xor _ _ _ _ hlen]
    _ = (crcBits 0xFFFFFFFF (bytesBits msg) ^^^ 0xFFFFFFFF)
          ^^^ crcBits 0 (oneBitAt (8 * msg.length) (8 * j + k)) := by
        simp only [Nat.xor_assoc]
        rw [Nat.xor_comm (crcBits 0 (oneBitAt (8 * msg.length) (8 * j + k))) 0xFFFFFFFF]

set_option maxRecDepth 10000 in
/-- No single-bit error in a 20-byte message has a zero CRC syndrome. -/
theorem crcDelta_all_ne_zero :
    ((List.range 160).all (fun i => crcBits 0 (oneBitAt 160 i) != 0)) = true := by
  decide

theorem crcDelta_ne_zero (i : ℕ) (h : i < 160) :
    crcBits 0 (oneBitAt 160 i) ≠ 0 := by
  have := List.all_eq_true.mp crcDelta_all_ne_zero i (List.mem_range.mpr h)
  simpa using this

theorem xor_ne_self_of_ne_zero (a d : ℕ) (hd : d ≠ 0) : a ^^^ d ≠ a := by
  intro h
  apply hd
  calc d = a ^^^ (a ^^^ d) := (nat_xor_cancel_left a d).symm
    _ = a ^^^ a := by rw [h]
    _ = 0 := Nat.xor_self a

theorem crcStep_lt (s : ℕ) (b : Bool) (hs : s < 2 ^ 32) : crcStep s b < 2 ^ 32 := by
  unfold crcStep
  have hone : (if b then 1 else 0 : ℕ) < 2 ^ 32 := by
    cases b
    · decide
    · decide
  have hu : s ^^^ (if b then 1 else 0) < 2 ^ 32 := Nat.xor_lt_two_pow hs hone
  apply Nat.xor_lt_two_pow
  · have h1 : (s ^^^ (if b then 1 else 0)) >>> 1
        = (s ^^^ (if b then 1 else 0)) / 2 ^ 1 := Nat.shiftRight_eq_div_pow _ 1
    rw [h1]
    have : (s ^^^ (if b then 1 else 0)) / 2 ^ 1 ≤ s ^^^ (if b then 1 else 0) :=
      Nat.div_le_self _ _
    omega
  · by_cases hbit : (s ^^^ (if b then 1 else 0)).testBit 0
    · rw [if_pos hbit]
      decide
    · rw [if_neg hbit]
      decide

theorem crcBits_lt : ∀ (bs : List Bool) (s : ℕ), s < 2 ^ 32 → crcBits s bs < 2 ^ 32
  | [], _, hs => hs
  | b :: bs, s, hs => crcBits_lt bs _ (crcStep_lt s b hs)

theorem crc32_lt (bytes : List ℕ) : crc32 bytes < 2 ^ 32 :=
  Nat.xor_lt_two_pow (crcBits_lt _ _ (by norm_num)) (by norm_num)

/-- Little-endian encoding of a 32-bit unsigned integer. -/
def u32le (x : ℕ) : List ℕ :=
  [x % 256, x / 256 % 256, x / 65536 % 256, x / 16777216 % 256]

/-- The first 20 bytes of the meta block body (spec §3, meta block
layout): center frequency in kHz, stream sample rate, bytes per sample,
effective bits, data block count, FEC block count, timestamp seconds and
microseconds - all little-endian. -/
def metaHeaderBytes (freqKhz rate bps bits nbBlocks nbFec tsSec tsUsec : ℕ) :
    List ℕ :=
  u32le freqKhz ++ u32le rate
    ++ [bps % 256, bits % 256, nbBlocks % 256, nbFec % 256]
    ++ u32le tsSec ++ u32le tsUsec

/-- The first 24 bytes of the meta block body as built by the Rx packer:
the 20-byte header followed by the CRC32 of those 20 bytes at offset 20
(the remaining 484 bytes are zero-filled and play no role here). -/
def metaBody (freqKhz rate bps bits nbBlocks nbFec tsSec tsUsec : ℕ) :
    List ℕ :=
  let hdr := metaHeaderBytes freqKhz rate bps bits nbBlocks nbFec tsSec tsUsec
  hdr ++ u32le (crc32 hdr)

/-- The 4-byte little-endian field at offset 20 of a meta body. -/
def storedCrcField (body : List ℕ) : ℕ :=
  body.getD 20 0 + 256 * body.getD 21 0 + 65536 * body.getD 22 0
    + 16777216 * body.getD 23 0

/-- The Tx-side meta CRC check: recompute the CRC32 of bytes 0..19 and
compare it with the stored field; a mismatch is a CRCFailure. -/
def crcCheckMeta (body : List ℕ) : Bool :=
  storedCrcField body == crc32 (body.take 20)

theorem metaHeaderBytes_length (freqKhz rate bps bits nbBlocks nbFec tsSec tsUsec : ℕ) :
    (metaHeaderBytes freqKhz rate bps bits nbBlocks nbFec tsSec tsUsec).length = 20 := by
  simp [metaHeaderBytes, u32le]

theorem storedCrcField_append (hdr : List ℕ) (h : hdr.length = 20) (x : ℕ)
    (hx : x < 2 ^ 32) : storedCrcField (hdr ++ u32le x) = x := by
  unfold storedCrcField
  rw [List.getD_append_right hdr _ 0 20 (by omega),
    List.getD_append_right hdr _ 0 21 (by omega),
    List.getD_append_right hdr _ 0 22 (by omega),
    List.getD_append_right hdr _ 0 23 (by omega), h]
  simp only [u32le, show (20 : ℕ) - 20 = 0 from rfl, show (21 : ℕ) - 20 = 1 from rfl,
    show (22 : ℕ) - 20 = 2 from rfl, show (23 : ℕ) - 20 = 3 from rfl,
    List.getD_cons_zero, List.getD_cons_succ]
  omega

theorem getD_set_ne (l : List ℕ) (i j v : ℕ) (h : i ≠ j) :
    (l.set i v).getD j 0 = l.getD j 0 := by
  simp [List.getD, List.getElem?_set_ne h]

theorem getD_take (l : List ℕ) (n j : ℕ) (h : j < n) :
    (l.take n).getD j 0 = l.getD j 0 := by
  simp [List.getD, List.getElem?_take, h]

/-! ## The Cauchy MDS erasure code

Modelled from the spec: the codec is the external CM256cc library
("Cauchy MDS Block Erasure codec", README).  Spec §4.5 and the design
notes: the generator stacks the identity on `k = 128` data rows with a
Cauchy part whose row `i`, column `j` entry is `1 / (x_i ⊕ y_j)` in
GF(2^8), with distinct `x_i`, `y_j` sequences (in characteristic two,
`⊕` is both addition and subtraction); decoding solves the linear system
given by any 128 received rows.  The bodies operated on are the 508-byte
block bodies, one GF(2^8) symbol per byte position. -/

/-- The kernel of a Cauchy-type system is trivial: if a vector `v` is
annihilated by every row `i` of the matrix `(x i + y j)⁻¹`, with `x`
injective on at least as many rows as there are unknowns, `y` injective,
and all denominators nonzero, then `v = 0`.  Classical proof: the
polynomial with the `v j` as residues has more roots than its degree. -/
theorem cauchy_kernel {F : Type} [Field F] {I K : Type} [Fintype I] [Fintype K]
    [DecidableEq K] (hcard : Fintype.card K ≤ Fintype.card I)
    (x : I → F) (y : K → F) (hx : Function.Injective x)
    (hy : Function.Injective y) (hne : ∀ i j, x i + y j ≠ 0)
    (v : K → F) (hsum : ∀ i, (∑ j, (x i + y j)⁻¹ * v j) = 0) :
    ∀ j, v j = 0 := by
  intro j0
  have hKne : 0 < Fintype.card K := Fintype.card_pos_iff.mpr ⟨j0⟩
  set P : Polynomial F :=
    ∑ j : K, Polynomial.C (v j)
      * ∏ l ∈ Finset.univ.erase j, (Polynomial.X + Polynomial.C (y l)) with hPdef
  have heval : ∀ i : I, P.eval (x i) = 0 := by
    intro i
    have hprod : ∀ j : K,
        v j * ∏ l ∈ Finset.univ.erase j, (x i + y l)
          = (x i + y j)⁻¹ * v j * (∏ l : K, (x i + y l)) := by
      intro j
      rw [← Finset.mul_prod_erase Finset.univ _ (Finset.mem_univ j)]
      rw [show (x i + y j)⁻¹ * v j * ((x i + y j)
            * ∏ l ∈ Finset.univ.erase j, (x i + y l))
          = v j * (∏ l ∈ Finset.univ.erase j, (x i + y l))
            * ((x i + y j)⁻¹ * (x i + y j)) from by ring,
        inv_mul_cancel₀ (hne i j), mul_one]
    calc P.eval (x i)
        = ∑ j : K, v j * ∏ l ∈ Finset.univ.erase j, (x i + y l) := by
          simp [hPdef, Polynomial.eval_finset_sum, Polynomial.eval_prod]
      _ = ∑ j : K, (x i + y j)⁻¹ * v j * (∏ l : K, (x i + y l)) :=
          Finset.sum_congr rfl (fun j _ => hprod j)
      _ = (∑ j : K, (x i + y j)⁻¹ * v j) * (∏ l : K, (x i + y l)) := by
          rw [Finset.sum_mul]
      _ = 0 := by rw [hsum i, zero_mul]
  have hdeg : P.natDegree ≤ Fintype.card K - 1 := by
    apply Polynomial.natDegree_sum_le_of_forall_le
    intro j _
    calc (Polynomial.C (v j)
          * ∏ l ∈ Finset.univ.erase j, (Polynomial.X + Polynomial.C (y l))).natDegree
        ≤ (Polynomial.C (v j)).natDegree
          + (∏ l ∈ Finset.univ.erase j, (Polynomial.X + Polynomial.C (y l))).natDegree :=
          Polynomial.natDegree_mul_le
      _ ≤ 0 + ∑ l ∈ Finset.univ.erase j, (Polynomial.X + Polynomial.C (y l)).natDegree := by
          rw [Polynomial.natDegree_C]
          exact Nat.add_le_add_left (Polynomial.natDegree_prod_le _ _) 0
      _ ≤ ∑ l ∈ Finset.univ.erase j, 1 := by
          rw [Nat.zero_add]
          exact Finset.sum_le_sum (fun l _ => le_of_eq (Polynomial.natDegree_X_add_C _))
      _ = Fintype.card K - 1 := by
          rw [Finset.sum_const, smul_eq_mul, mul_one,
            Finset.card_erase_of_mem (Finset.mem_univ j), Finset.card_univ]
  have hP0 : P = 0 := by
    apply Polynomial.eq_zero_of_natDegree_lt_card_of_eval_eq_zero P hx heval
    omega
  have hev := congrArg (Polynomial.eval (-(y j0))) hP0
  rw [Polynomial.eval_zero] at hev
  have hev2 : (∑ j : K, v j * ∏ l ∈ Finset.univ.erase j, (-(y j0) + y l)) = 0 := by
    rw [← hev, hPdef]
    simp [Polynomial.eval_finset_sum, Polynomial.eval_prod]
  rw [Finset.sum_eq_single j0
      (fun j _ hj => by
        apply mul_eq_zero_of_right
        apply Finset.prod_eq_zero (Finset.mem_erase.mpr ⟨Ne.symm hj, Finset.mem_univ j0⟩)
        rw [neg_add_cancel])
      (fun h => absurd (Finset.mem_univ j0) h)] at hev2
  have hprodne : (∏ l ∈ Finset.univ.erase j0, (-(y j0) + y l)) ≠ 0 := by
    rw [Finset.prod_ne_zero_iff]
    intro l hl
    rw [neg_add_eq_sub, sub_ne_zero]
    exact fun hyl => (Finset.mem_erase.mp hl).1 (hy hyl)
  rcases mul_eq_zero.mp hev2 with hv0 | hc
  · exact hv0
  · exact absurd hc hprodne

/-- The Galois field GF(2^8) in which the codec's byte arithmetic lives. -/
abbrev GF256 := GaloisField 2 8

noncomputable instance : Fintype GF256 := Fintype.ofFinite _

theorem gf256_card : Fintype.card GF256 = 256 := by
  have h := GaloisField.card 2 8 (by norm_num)
  rw [Nat.card_eq_fintype_card] at h
  rw [h]
  norm_num

theorem gf256_add_eq_zero_iff (a b : GF256) : a + b = 0 ↔ a = b := by
  rw [add_eq_zero_iff_eq_neg, CharTwo.neg_eq]

open scoped Classical in
/-- Modelled from the spec: the deterministic sequences of pairwise
distinct GF(2^8) elements from which the Cauchy matrix for `(128, R)` is
built - `y_j` for the 128 data rows (indices below 128) and `x_i` for the
`R` parity rows (indices from 128).  Any injection serves; the spec fixes
no particular one. -/
noncomputable def fecParam (R : ℕ) : Fin (128 + R) → GF256 :=
  if h : Nonempty (Fin (128 + R) ↪ GF256) then
    (Classical.choice h : Fin (128 + R) ↪ GF256)
  else fun _ => 0

theorem fecParam_injective (R : ℕ) (hR : R ≤ 128) :
    Function.Injective (fecParam R) := by
  have hle : Fintype.card (Fin (128 + R)) ≤ Fintype.card GF256 := by
    rw [Fintype.card_fin, gf256_card]
    omega
  have hne : Nonempty (Fin (128 + R) ↪ GF256) :=
    Function.Embedding.nonempty_of_card_le hle
  unfold fecParam
  rw [dif_pos hne]
  exact (Classical.choice hne).injective

/-- The systematic generator of the `(128, 128 + R)` Cauchy code: identity
rows for the 128 data blocks, and for each parity row `i ≥ 128` the Cauchy
row `j ↦ (x_i + y_j)⁻¹` (spec §4.5 and design notes). -/
noncomputable def fecGenerator (R : ℕ) :
    Matrix (Fin (128 + R)) (Fin 128) GF256 := fun i j =>
  if (i : ℕ) < 128 then (if (i : ℕ) = (j : ℕ) then 1 else 0)
  else (fecParam R i + fecParam R (Fin.castAdd R j))⁻¹

/-- Encoding a frame: each of the `128 + R` block bodies is the generator
row applied to the 128 data bodies, one GF(2^8) symbol per byte position.
Data rows reproduce the data (systematic code); parity rows are the Cauchy
combinations. -/
noncomputable def fecEncode (R : ℕ) (data : Fin 128 → Fin 508 → GF256) :
    Fin (128 + R) → Fin 508 → GF256 := fun i b =>
  ∑ j, fecGenerator R i j * data j b

/-- The square system solved by the decoder: the generator restricted to
the 128 received rows, enumerated in order by `Finset.orderIsoOfFin`. -/
noncomputable def decodeMatrix (R : ℕ) (S : Finset (Fin (128 + R)))
    (h : S.card = 128) : Matrix (Fin 128) (Fin 128) GF256 := fun i j =>
  fecGenerator R (S.orderIsoOfFin h i) j

/-- The decoder: solve the restricted linear system (spec §4.5, "Gaussian
elimination over the Cauchy matrix restricted to the present rows"),
byte position by byte position. -/
noncomputable def fecDecode (R : ℕ) (S : Finset (Fin (128 + R)))
    (h : S.card = 128) (received : Fin 128 → Fin 508 → GF256) :
    Fin 128 → Fin 508 → GF256 := fun j b =>
  (decodeMatrix R S h)⁻¹.mulVec (fun i => received i b) j

theorem fecGenerator_castAdd (R : ℕ) (j j' : Fin 128) :
    fecGenerator R (Fin.castAdd R j) j' = if j = j' then 1 else 0 := by
  unfold fecGenerator
  rw [if_pos (by simp : ((Fin.castAdd R j : Fin (128 + R)) : ℕ) < 128)]
  simp [Fin.val_eq_val]

/-- Any 128 rows of the systematic Cauchy generator form an invertible
system: the received-rows matrix is nonsingular. -/
theorem decodeMatrix_det_ne_zero (R : ℕ) (hR : R ≤ 127)
    (S : Finset (Fin (128 + R))) (hS : S.card = 128) :
    (decodeMatrix R S hS).det ≠ 0 := by
  classical
  intro hdet
  obtain ⟨v, hv, hmul⟩ := Matrix.exists_mulVec_eq_zero_iff.mpr hdet
  apply hv
  have hinj : Function.Injective (fecParam R) := fecParam_injective R (by omega)
  have hrowS : ∀ s ∈ S, (∑ j, fecGenerator R s j * v j) = 0 := by
    intro s hs
    have h0 := congrFun hmul ((S.orderIsoOfFin hS).symm ⟨s, hs⟩)
    have hi : ((S.orderIsoOfFin hS) ((S.orderIsoOfFin hS).symm ⟨s, hs⟩)
        : Fin (128 + R)) = s := by
      rw [OrderIso.apply_symm_apply]
    simpa [Matrix.mulVec, Matrix.dotProduct, decodeMatrix, hi] using h0
  have hdata : ∀ j : Fin 128, Fin.castAdd R j ∈ S → v j = 0 := by
    intro j hj
    have h0 := hrowS _ hj
    rw [Finset.sum_congr rfl (fun j' _ => by rw [fecGenerator_castAdd])] at h0
    simpa [ite_mul] using h0
  set D : Finset (Fin 128) := Finset.univ.filter (fun j => Fin.castAdd R j ∈ S)
    with hD
  set T : Finset (Fin 128) := Finset.univ.filter (fun j => ¬ Fin.castAdd R j ∈ S)
    with hT
  set P : Finset (Fin (128 + R)) :=
    S.filter (fun s : Fin (128 + R) => ¬ (s : ℕ) < 128) with hP
  have hcardD : (S.filter (fun s : Fin (128 + R) => (s : ℕ) < 128)).card
      = D.card := by
    refine Finset.card_bij'
      (fun (a : Fin (128 + R)) ha => (⟨(a : ℕ), (Finset.mem_filter.mp ha).2⟩ : Fin 128))
      (fun (b : Fin 128) _ => Fin.castAdd R b) ?_ ?_ ?_ ?_
    · intro a ha
      rw [hD, Finset.mem_filter]
      refine ⟨Finset.mem_univ _, ?_⟩
      have hcast : Fin.castAdd R (⟨(a : ℕ), (Finset.mem_filter.mp ha).2⟩ : Fin 128)
          = a := Fin.ext (by simp)
      rw [hcast]
      exact (Finset.mem_filter.mp ha).1
    · intro b hb
      rw [hD, Finset.mem_filter] at hb
      rw [Finset.mem_filter]
      exact ⟨hb.2, by simp⟩
    · intro a ha
      exact Fin.ext (by simp)
    · intro b hb
      exact Fin.ext (by simp)
  have hDP : D.card + P.card = 128 := by
    have hpart := Finset.filter_card_add_filter_neg_card_eq_card
      (s := S) (p := fun s : Fin (128 + R) => (s : ℕ) < 128)
    rw [hS, hcardD, ← hP] at hpart
    exact hpart
  have hDT : D.card + T.card = 128 := by
    have hpart := Finset.filter_card_add_filter_neg_card_eq_card
      (s := (Finset.univ : Finset (Fin 128)))
      (p := fun j : Fin 128 => Fin.castAdd R j ∈ S)
    rw [← hD, ← hT, Finset.card_univ, Fintype.card_fin] at hpart
    exact hpart
  have hparity : ∀ p : ↥P,
      (∑ t : ↥T, (fecParam R ↑p + fecParam R (Fin.castAdd R ↑t))⁻¹ * v ↑t) = 0 := by
    rintro ⟨s, hs⟩
    have hs' : s ∈ S ∧ ¬ (s : ℕ) < 128 := Finset.mem_filter.mp hs
    have h0 := hrowS s hs'.1
    have hG : ∀ j : Fin 128,
        fecGenerator R s j = (fecParam R s + fecParam R (Fin.castAdd R j))⁻¹ := by
      intro j
      unfold fecGenerator
      rw [if_neg hs'.2]
    rw [Finset.sum_congr rfl (fun j _ => by rw [hG j])] at h0
    have hsplit := Finset.sum_filter_add_sum_filter_not Finset.univ
      (fun j : Fin 128 => Fin.castAdd R j ∈ S)
      (fun j => (fecParam R s + fecParam R (Fin.castAdd R j))⁻¹ * v j)
    have hDzero : (∑ j ∈ D, (fecParam R s + fecParam R (Fin.castAdd R j))⁻¹ * v j)
        = 0 := by
      apply Finset.sum_eq_zero
      intro j hj
      rw [hD, Finset.mem_filter] at hj
      rw [hdata j hj.2, mul_zero]
    have hTsum : (∑ j ∈ T, (fecParam R s + fecParam R (Fin.castAdd R j))⁻¹ * v j)
        = 0 := by
      rw [← hD, ← hT] at hsplit
      rw [hDzero, zero_add] at hsplit
      rw [hsplit, h0]
    calc (∑ t : ↥T, (fecParam R s + fecParam R (Fin.castAdd R ↑t))⁻¹ * v ↑t)
        = ∑ j ∈ T, (fecParam R s + fecParam R (Fin.castAdd R j))⁻¹ * v j :=
          Finset.sum_coe_sort T
            (fun j => (fecParam R s + fecParam R (Fin.castAdd R j))⁻¹ * v j)
      _ = 0 := hTsum
  have hcard : Fintype.card ↥T ≤ Fintype.card ↥P := by
    rw [Fintype.card_coe, Fintype.card_coe]
    omega
  have hx : Function.Injective (fun p : ↥P => fecParam R ↑p) := by
    intro a b hab
    exact Subtype.ext (hinj hab)
  have hy : Function.Injective (fun t : ↥T => fecParam R (Fin.castAdd R ↑t)) := by
    intro a b hab
    exact Subtype.ext (Fin.castAdd_injective 128 R (hinj hab))
  have hne : ∀ (p : ↥P) (t : ↥T),
      (fun p : ↥P => fecParam R ↑p) p
        + (fun t : ↥T => fecParam R (Fin.castAdd R ↑t)) t ≠ 0 := by
    intro p t h0
    rw [gf256_add_eq_zero_iff] at h0
    have heq := hinj h0
    have hlt : ((Fin.castAdd R ↑t : Fin (128 + R)) : ℕ) < 128 := by simp
    have hge : ¬ ((↑p : Fin (128 + R)) : ℕ) < 128 :=
      (Finset.mem_filter.mp p.2).2
    have hvals : ((↑p : Fin (128 + R)) : ℕ)
        = ((Fin.castAdd R ↑t : Fin (128 + R)) : ℕ) := congrArg Fin.val heq
    omega
  have hker := cauchy_kernel hcard _ _ hx hy hne (fun t : ↥T => v ↑t) hparity
  funext j
  by_cases hj : Fin.castAdd R j ∈ S
  · exact hdata j hj
  · exact hker ⟨j, by rw [hT]; simp [hj]⟩

/-- C1: For every redundancy count R in [0, 127] and every frame of 128
data-block bodies, if any 128 distinct blocks out of the 128 + R encoded
blocks (any mixture of data and parity) are available, the FEC decoder
reconstructs all 128 data-block bodies exactly. -/
theorem c1_fec_completeness (R : ℕ) (hR : R ≤ 127)
    (S : Finset (Fin (128 + R))) (hS : S.card = 128)
    (data : Fin 128 → Fin 508 → GF256) :
    fecDecode R S hS
      (fun i b => fecEncode R data (S.orderIsoOfFin hS i) b) = data := by
  funext j b
  unfold fecDecode
  have hrec : (fun i : Fin 128 =>
        fecEncode R data ((S.orderIsoOfFin hS i : Fin (128 + R))) b)
      = (decodeMatrix R S hS).mulVec (fun j' => data j' b) := by
    funext i
    simp [fecEncode, decodeMatrix, Matrix.mulVec, Matrix.dotProduct]
  rw [hrec, Matrix.mulVec_mulVec,
    Matrix.nonsing_inv_mul _
      (isUnit_iff_ne_zero.mpr (decodeMatrix_det_ne_zero R hR S hS)),
    Matrix.one_mulVec]

theorem univ_card_128 : (Finset.univ : Finset (Fin (128 + 0))).card = 128 := by
  simp

theorem c1_fec_completeness_witness :
    fecDecode 0 Finset.univ univ_card_128
      (fun i b => fecEncode 0 (fun _ _ => (0 : GF256))
        (Finset.univ.orderIsoOfFin univ_card_128 i) b)
      = (fun _ _ => (0 : GF256)) :=
  c1_fec_completeness 0 (by decide) Finset.univ univ_card_128
    (fun _ _ => (0 : GF256))

/-! ## Claim theorems for packaging, CRC and downsampler -/

/-- C2: Each sample block carries exactly `508 / (2 * bytesPerSample)` IQ
samples - 127 samples when bytesPerSample = 2 - and a complete frame
conveys exactly `127 * samplesPerBlock` samples - 16129 when
bytesPerSample = 2. -/
theorem c2_frame_geometry :
    (∀ bytesPerSample : ℕ,
      samplesPerBlock bytesPerSample = 508 / (2 * bytesPerSample)
      ∧ samplesPerFrame bytesPerSample
          = 127 * samplesPerBlock bytesPerSample)
    ∧ samplesPerBlock 2 = 127 ∧ samplesPerFrame 2 = 16129 := by
  refine ⟨fun bps => ⟨rfl, rfl⟩, by decide, by decide⟩

/-- Reading bytes 20..23 is unaffected by setting a byte below offset
20. -/
theorem storedCrcField_set_lt (body : List ℕ) (j v : ℕ) (hj : j < 20) :
    storedCrcField (body.set j v) = storedCrcField body := by
  unfold storedCrcField
  rw [getD_set_ne _ _ _ _ (by omega), getD_set_ne _ _ _ _ (by omega),
    getD_set_ne _ _ _ _ (by omega), getD_set_ne _ _ _ _ (by omega)]

/-- C3: For every meta-block body, the 4-byte field at offset 20 equals
the CRC32 (IEEE 802.3 polynomial 0xEDB88320 reflected, initial
0xFFFFFFFF, final XOR 0xFFFFFFFF) of bytes 0..19; consequently flipping
any single bit in bytes 0..19 makes the stored CRC mismatch the
recomputed one, causing CRCFailure on the Tx side. -/
theorem c3_meta_crc (freqKhz rate bps bits nbBlocks nbFec tsSec tsUsec : ℕ) :
    storedCrcField (metaBody freqKhz rate bps bits nbBlocks nbFec tsSec tsUsec)
      = crc32 ((metaBody freqKhz rate bps bits nbBlocks nbFec tsSec tsUsec).take 20)
    ∧ ∀ j k : ℕ, j < 20 → k < 8 →
      crcCheckMeta
        ((metaBody freqKhz rate bps bits nbBlocks nbFec tsSec tsUsec).set j
          ((metaBody freqKhz rate bps bits nbBlocks nbFec tsSec tsUsec).getD j 0
            ^^^ 2 ^ k)) = false := by
  have hlen : (metaHeaderBytes freqKhz rate bps bits nbBlocks nbFec tsSec tsUsec).length
      = 20 := metaHeaderBytes_length freqKhz rate bps bits nbBlocks nbFec tsSec tsUsec
  set hdr := metaHeaderBytes freqKhz rate bps bits nbBlocks nbFec tsSec tsUsec
    with hhdr
  have hbody : metaBody freqKhz rate bps bits nbBlocks nbFec tsSec tsUsec
      = hdr ++ u32le (crc32 hdr) := rfl
  have htake : (hdr ++ u32le (crc32 hdr)).take 20 = hdr := List.take_left' hlen
  have hstored : storedCrcField (hdr ++ u32le (crc32 hdr)) = crc32 hdr :=
    storedCrcField_append hdr hlen _ (crc32_lt hdr)
  constructor
  · rw [hbody, htake, hstored]
  · intro j k hj hk
    rw [hbody]
    have hbl : (hdr ++ u32le (crc32 hdr)).length = 24 := by
      rw [List.length_append, hlen]
      simp [u32le]
    have hlen20 : ((hdr ++ u32le (crc32 hdr)).take 20).length = 20 := by
      rw [List.length_take]
      omega
    have hst : storedCrcField ((hdr ++ u32le (crc32 hdr)).set j
        ((hdr ++ u32le (crc32 hdr)).getD j 0 ^^^ 2 ^ k)) = crc32 hdr := by
      rw [storedCrcField_set_lt _ _ _ hj, hstored]
    have htake2 : ((hdr ++ u32le (crc32 hdr)).set j
          ((hdr ++ u32le (crc32 hdr)).getD j 0 ^^^ 2 ^ k)).take 20
        = ((hdr ++ u32le (crc32 hdr)).take 20).set j
          (((hdr ++ u32le (crc32 hdr)).take 20).getD j 0 ^^^ 2 ^ k) := by
      rw [List.set_take, getD_take _ _ _ hj]
    have hflip := crc32_set_bit ((hdr ++ u32le (crc32 hdr)).take 20) j k
      (by rw [hlen20]; exact hj) hk
    rw [hlen20, show (8 : ℕ) * 20 = 160 from rfl] at hflip
    unfold crcCheckMeta
    rw [htake2, hflip, hst, htake]
    have hdelta : crcBits 0 (oneBitAt 160 (8 * j + k)) ≠ 0 :=
      crcDelta_ne_zero (8 * j + k) (by omega)
    exact beq_eq_false_iff_ne.mpr
      (Ne.symm (xor_ne_self_of_ne_zero (crc32 hdr) _ hdelta))

theorem c3_meta_crc_witness :
    storedCrcField (metaBody 433970 48000 2 16 128 8 0 0)
      = crc32 ((metaBody 433970 48000 2 16 128 8 0 0).take 20)
    ∧ crcCheckMeta ((metaBody 433970 48000 2 16 128 8 0 0).set 0
        ((metaBody 433970 48000 2 16 128 8 0 0).getD 0 0 ^^^ 2 ^ 0)) = false :=
  ⟨(c3_meta_crc 433970 48000 2 16 128 8 0 0).1,
    (c3_meta_crc 433970 48000 2 16 128 8 0 0).2 0 0 (by decide) (by decide)⟩

/-- C4: For every input IQ sample vector and every decimation log2 factor
in [0, 6], `Downsampler::process` produces an output vector whose length
equals `len(in) >> decim`, and with decim = 0 the output equals the input
(pass-through). -/
theorem c4_downsampler_contract (dn : Downsampler) (samples_in : List IQSample)
    (_hd : dn.m_decim ≤ 6) :
    (dn.process samples_in).length = samples_in.length >>> dn.m_decim
    ∧ (dn.m_decim = 0 → dn.process samples_in = samples_in) := by
  constructor
  · rw [Downsampler.process_length, Nat.shiftRight_eq_div_pow]
  · intro h0
    exact Downsampler.process_decim_zero dn h0 samples_in

theorem c4_downsampler_contract_witness :
    ((Downsampler.mk 3 .FC_POS_CENTER).process
        (List.replicate 8 ((1 : Int), (2 : Int)))).length
      = (List.replicate 8 ((1 : Int), (2 : Int))).length >>> 3
    ∧ ((Downsampler.mk 3 .FC_POS_CENTER).m_decim = 0 →
        (Downsampler.mk 3 .FC_POS_CENTER).process
          (List.replicate 8 ((1 : Int), (2 : Int)))
          = List.replicate 8 ((1 : Int), (2 : Int))) :=
  c4_downsampler_contract (Downsampler.mk 3 .FC_POS_CENTER)
    (List.replicate 8 ((1 : Int), (2 : Int))) (by decide)

/-! ## Claim theorems for the main loop, buffer and shutdown -/

/-- C5 counterexample: with a startup configuration containing `decim=3`,
the vector emitted on the network path is the 8-sample device vector
unchanged - not its 2^3-fold decimation of length 1.  `main.cpp` passes
the configuration string to the device only; `Downsampler dn;` is
default-constructed and never reconfigured. -/
theorem c5_config_decimator_counterexample :
    (mainRun (mainDownsampler "txdelay=300,fecblk=8,freq=433970000,decim=3,fcpos=2")
        1000000 (fun _ => false) 0 false
        [⟨0, List.replicate 8 ((1 : Int), (0 : Int))⟩,
         ⟨0, List.replicate 8 ((1 : Int), (0 : Int))⟩]).outputs
      = [List.replicate 8 ((1 : Int), (0 : Int))]
    ∧ (mainRun (mainDownsampler "txdelay=300,fecblk=8,freq=433970000,decim=3,fcpos=2")
        1000000 (fun _ => false) 0 false
        [⟨0, List.replicate 8 ((1 : Int), (0 : Int))⟩,
         ⟨0, List.replicate 8 ((1 : Int), (0 : Int))⟩]).outputs
      ≠ [(Downsampler.mk 3 .FC_POS_CENTER).process
          (List.replicate 8 ((1 : Int), (0 : Int)))]
    ∧ ((Downsampler.mk 3 .FC_POS_CENTER).process
        (List.replicate 8 ((1 : Int), (0 : Int)))).length = 1 := by
  refine ⟨by decide, by decide, by decide⟩

/-- C5 (amended): the startup configuration string is applied to the
device (`srcsdr->configure`); the decimator on the Rx data path is
default-constructed with decim = 0 and centered fcpos and is never
mutated by the configuration, so the vectors emitted on the network path
are the pulled device vectors unchanged. -/
theorem c5_config_decimator_amended :
    (∀ config_str : String,
      mainDownsampler config_str = Downsampler.mk 0 .FC_POS_CENTER)
    ∧ ∀ (config_str : String) (ifrate : ℕ) (ins : List LoopIn),
      (mainRun (mainDownsampler config_str) ifrate (fun _ => false) 0 false
          ins).outputs
        = ((ins.map LoopIn.pulled).takeWhile (fun vec => !vec.isEmpty)).drop 1 := by
  refine ⟨fun _ => rfl, fun cfg ifrate ins => ?_⟩
  rw [mainRun_outputs_zero, mainRun_processed_eq]
  have hid : ∀ l : List IQSample, (mainDownsampler cfg).process l = l :=
    fun l => Downsampler.process_decim_zero _ rfl l
  rw [List.map_congr_left (fun l _ => hid l)]
  simp

/-- C6 counterexample: over a run whose consumed iterations see the
overrun condition twice (queued = 11 > 10 · ifrate, then 0, then 11
again), only one warning is printed - not one per occurrence. -/
theorem c6_overrun_warning_counterexample :
    (mainRun Downsampler.default 1 (fun _ => false) 0 false
      [⟨11, [((0 : Int), (0 : Int))]⟩, ⟨0, [((0 : Int), (0 : Int))]⟩,
       ⟨11, [((0 : Int), (0 : Int))]⟩]).warnings = 1
    ∧ (mainRun Downsampler.default 1 (fun _ => false) 0 false
        [⟨11, [((0 : Int), (0 : Int))]⟩, ⟨0, [((0 : Int), (0 : Int))]⟩,
         ⟨11, [((0 : Int), (0 : Int))]⟩]).consumed.countP
        (fun li => decide (10 * 1 < li.queued)) = 2
    ∧ (1 : ℕ) ≠ 2 := by
  refine ⟨by decide, by decide, by decide⟩

/-- C6 (amended): whenever the source buffer's queued-sample count is seen
past `10 * ifrate` at some consumed iteration, a BufferOverrun warning is
logged - exactly once per run, at the first such occurrence, never again;
the condition is not fatal: outputs, iteration count and consumed trace
are unaffected by the warning state. -/
theorem c6_overrun_warning_amended (dn : Downsampler) (ifrate : ℕ)
    (flag : ℕ → Bool) (block : ℕ) (ins : List LoopIn) :
    ((mainRun dn ifrate flag block false ins).warnings
      = if (mainRun dn ifrate flag block false ins).consumed.any
          (fun li => decide (10 * ifrate < li.queued)) then 1 else 0)
    ∧ (mainRun dn ifrate flag block false ins).warnings ≤ 1
    ∧ ∀ w w' : Bool,
      (mainRun dn ifrate flag block w ins).outputs
        = (mainRun dn ifrate flag block w' ins).outputs
      ∧ (mainRun dn ifrate flag block w ins).iters
        = (mainRun dn ifrate flag block w' ins).iters
      ∧ (mainRun dn ifrate flag block w ins).consumed
        = (mainRun dn ifrate flag block w' ins).consumed := by
  refine ⟨mainRun_warnings_eq dn ifrate flag ins block, ?_, fun w w' => ?_⟩
  · rw [mainRun_warnings_eq]
    split <;> omega
  · have h := mainRun_warned_independent dn ifrate flag ins block w w'
    exact ⟨h.1, h.2.2.1, h.2.2.2⟩

/-- C7: `pull()` blocks exactly until a vector is available or end is
signalled; once end is signalled and the queue is drained it returns an
empty vector; the main worker exits its loop on an empty pulled vector;
and the output thread leaves its loop when `pull_end_reached()` holds. -/
theorem c7_pull_end_semantics :
    (∀ buf : DataBuffer, buf.pull = none
      ↔ buf.m_queue = [] ∧ buf.m_end = false)
    ∧ (∀ buf : DataBuffer, buf.m_queue = [] → buf.m_end = true →
        buf.pull = some ([], buf))
    ∧ (∀ (dn : Downsampler) (ifrate : ℕ) (flag : ℕ → Bool) (block : ℕ)
        (warned : Bool) (q : ℕ) (rest : List LoopIn),
        (mainRun dn ifrate flag block warned (⟨q, []⟩ :: rest)).outputs = []
        ∧ (mainRun dn ifrate flag block warned (⟨q, []⟩ :: rest)).iters ≤ 1)
    ∧ (∀ (stop : Bool) (buf : DataBuffer), buf.pull_end_reached = true →
        write_output_step stop buf = OutStep.exited) := by
  refine ⟨?_, ?_, ?_, ?_⟩
  · rintro ⟨queue, e⟩
    cases queue
    · cases e
      · simp [DataBuffer.pull]
      · simp [DataBuffer.pull]
    · simp [DataBuffer.pull]
  · rintro ⟨queue, e⟩ hq he
    subst hq
    subst he
    simp [DataBuffer.pull]
  · intro dn ifrate flag block warned q rest
    by_cases hf : flag block
    · simp [mainRun, hf]
    · simp [mainRun, hf]
  · intro stop buf hend
    cases stop
    · simp [write_output_step, hend]
    · simp [write_output_step]

theorem c7_pull_end_semantics_witness :
    ((DataBuffer.mk [] false).pull = none
      ↔ (DataBuffer.mk [] false).m_queue = []
        ∧ (DataBuffer.mk [] false).m_end = false)
    ∧ (DataBuffer.mk [] true).pull = some ([], DataBuffer.mk [] true)
    ∧ ((mainRun Downsampler.default 0 (fun _ => false) 0 false
          [⟨0, []⟩]).outputs = []
        ∧ (mainRun Downsampler.default 0 (fun _ => false) 0 false
            [⟨0, []⟩]).iters ≤ 1)
    ∧ write_output_step false (DataBuffer.mk [] true) = OutStep.exited :=
  ⟨c7_pull_end_semantics.1 (DataBuffer.mk [] false),
    c7_pull_end_semantics.2.1 (DataBuffer.mk [] true) rfl rfl,
    c7_pull_end_semantics.2.2.1 Downsampler.default 0 (fun _ => false) 0 false 0 [],
    c7_pull_end_semantics.2.2.2 false (DataBuffer.mk [] true) rfl⟩

/-- C8: SIGINT/SIGTERM store true into the stop flag; once the flag is
set (from iteration `t` on, monotonically), the main loop enters at most
`t` more bodies and pushes at most `t` more vectors - it never keeps
emitting indefinitely; after the loop the device is stopped, `push_end()`
is signalled, the output thread is joined, and `main` returns 0. -/
theorem c8_sigterm_shutdown (flag : ℕ → Bool)
    (hmono : ∀ m n : ℕ, m ≤ n → flag m = true → flag n = true)
    (t : ℕ) (ht : flag t = true) (dn : Downsampler) (ifrate : ℕ)
    (ins : List LoopIn) (warned : Bool) :
    (∀ s : Bool, handle_sigterm s = true)
    ∧ (mainRun dn ifrate flag 0 warned ins).iters ≤ t
    ∧ (mainRun dn ifrate flag 0 warned ins).outputs.length ≤ t
    ∧ mainShutdownSequence
        = [ShutdownAction.deviceStop, ShutdownAction.pushEnd,
            ShutdownAction.joinOutput]
    ∧ mainExitCode = 0 := by
  have hit := mainRun_iters_le dn ifrate flag hmono t ht ins 0 warned
  have hout := mainRun_outputs_length_le_iters dn ifrate flag ins 0 warned
  exact ⟨fun _ => rfl, by omega, by omega, by decide, rfl⟩

theorem c8_sigterm_shutdown_witness :
    handle_sigterm false = true
    ∧ (mainRun Downsampler.default 0 (fun _ => true) 0 false []).iters ≤ 0
    ∧ (mainRun Downsampler.default 0 (fun _ => true) 0 false
        []).outputs.length ≤ 0
    ∧ mainShutdownSequence
        = [ShutdownAction.deviceStop, ShutdownAction.pushEnd,
            ShutdownAction.joinOutput]
    ∧ mainExitCode = 0 :=
  have h := c8_sigterm_shutdown (fun _ => true) (fun _ _ _ hx => hx) 0 rfl
    Downsampler.default 0 [] false
  ⟨h.1 false, h.2.1, h.2.2.1, h.2.2.2.1, h.2.2.2.2⟩

/-- C9: in every run of the main loop, each pulled vector of the maximal
nonempty prefix is run through the downsampler, and the vectors written
to the output buffer are exactly the processed vectors with the first one
removed - network emission starts with the second pulled vector. -/
theorem c9_first_block_discarded (dn : Downsampler) (ifrate : ℕ)
    (ins : List LoopIn) :
    (mainRun dn ifrate (fun _ => false) 0 false ins).processed
      = ((ins.map LoopIn.pulled).takeWhile (fun vec => !vec.isEmpty)).map
          dn.process
    ∧ (mainRun dn ifrate (fun _ => false) 0 false ins).outputs
      = ((mainRun dn ifrate (fun _ => false) 0 false ins).processed).drop 1 :=
  ⟨mainRun_processed_eq dn ifrate ins 0 false,
    mainRun_outputs_zero dn ifrate (fun _ => false) ins false⟩

/-! Span lemmas used to relate the `strtol` model to the declarative
decomposition of its input. -/

theorem dropWhile_append_of_all (p : Char → Bool) :
    ∀ (w r : List Char), (∀ c ∈ w, p c = true) →
    (w ++ r).dropWhile p = r.dropWhile p
  | [], _, _ => rfl
  | c :: w, r, h => by
      rw [List.cons_append, List.dropWhile_cons,
        if_pos (h c (List.mem_cons_self c w))]
      exact dropWhile_append_of_all p w r (fun c' hc' => h c' (List.mem_cons_of_mem c hc'))

theorem dropWhile_head_false (p : Char → Bool) (l : List Char)
    (h : ∀ c, l.head? = some c → p c = false) : l.dropWhile p = l := by
  cases l with
  | nil => rfl
  | cons c r =>
      rw [List.dropWhile_cons, if_neg]
      rw [h c rfl]
      simp

theorem takeWhile_append_of_all (p : Char → Bool) :
    ∀ (w r : List Char), (∀ c ∈ w, p c = true) →
    (w ++ r).takeWhile p = w ++ r.takeWhile p
  | [], _, _ => rfl
  | c :: w, r, h => by
      rw [List.cons_append, List.takeWhile_cons,
        if_pos (h c (List.mem_cons_self c w)), List.cons_append,
        takeWhile_append_of_all p w r (fun c' hc' => h c' (List.mem_cons_of_mem c hc'))]

theorem takeWhile_head_false (p : Char → Bool) (l : List Char)
    (h : ∀ c, l.head? = some c → p c = false) : l.takeWhile p = [] := by
  cases l with
  | nil => rfl
  | cons c r =>
      rw [List.takeWhile_cons, if_neg]
      rw [h c rfl]
      simp

theorem isCSpace_of_isDigit (c : Char) (h : c.isDigit = true) :
    isCSpace c = false := by
  cases hsp : isCSpace c
  · rfl
  · exfalso
    simp only [isCSpace, Bool.or_eq_true, decide_eq_true_eq] at hsp
    rcases hsp with ((((h1 | h2) | h3) | h4) | h5) | h6 <;> subst_vars <;>
      exact absurd h (by decide)

theorem not_sign_of_isDigit (c : Char) (h : c.isDigit = true) :
    c ≠ '-' ∧ c ≠ '+' := by
  constructor <;> rintro rfl <;> exact absurd h (by decide)

/-- `strtol` on an input decomposed as whitespace, an optional sign, a
nonempty digit run and a non-digit suffix. -/
theorem strtol10_decomp (w sgn ds suffix : List Char)
    (hw : ∀ c ∈ w, isCSpace c = true)
    (hsgn : sgn = [] ∨ sgn = ['+'] ∨ sgn = ['-'])
    (hds : ds ≠ []) (hdig : ∀ c ∈ ds, c.isDigit = true)
    (hsfx : ∀ c, suffix.head? = some c → c.isDigit = false) :
    strtol10 (w ++ sgn ++ ds ++ suffix)
      = ⟨clampLong (decide (sgn = ['-'])) (digitsToNat ds), suffix, true⟩ := by
  have hassoc : w ++ sgn ++ ds ++ suffix = w ++ (sgn ++ (ds ++ suffix)) := by
    simp [List.append_assoc]
  have hheadrest : ∀ c, (sgn ++ (ds ++ suffix)).head? = some c →
      isCSpace c = false := by
    rcases hsgn with rfl | rfl | rfl
    · rw [List.nil_append]
      intro c hc
      cases ds with
      | nil => exact absurd rfl hds
      | cons d dsr =>
          rw [List.cons_append, List.head?_cons, Option.some_inj] at hc
          subst hc
          exact isCSpace_of_isDigit d (hdig d (List.mem_cons_self d dsr))
    · intro c hc
      rw [List.cons_append, List.head?_cons, Option.some_inj] at hc
      subst hc
      decide
    · intro c hc
      rw [List.cons_append, List.head?_cons, Option.some_inj] at hc
      subst hc
      decide
  have h1 : (w ++ (sgn ++ (ds ++ suffix))).dropWhile isCSpace
      = sgn ++ (ds ++ suffix) := by
    rw [dropWhile_append_of_all isCSpace w _ hw]
    exact dropWhile_head_false _ _ hheadrest
  have h2 : signSplit (sgn ++ (ds ++ suffix))
      = (decide (sgn = ['-']), ds ++ suffix) := by
    rcases hsgn with rfl | rfl | rfl
    · rw [List.nil_append]
      cases ds with
      | nil => exact absurd rfl hds
      | cons d dsr =>
          have hd := hdig d (List.mem_cons_self d dsr)
          have hns := not_sign_of_isDigit d hd
          simp [signSplit, hns.1, hns.2]
    · simp [signSplit]
    · simp [signSplit]
  have h3 : (ds ++ suffix).takeWhile Char.isDigit = ds := by
    rw [takeWhile_append_of_all _ _ _ hdig, takeWhile_head_false _ _ hsfx,
      List.append_nil]
  have h4 : (ds ++ suffix).dropWhile Char.isDigit = suffix := by
    rw [dropWhile_append_of_all _ _ _ hdig]
    exact dropWhile_head_false _ _ hsfx
  rw [hassoc]
  simp only [strtol10, h1, h2, h3, h4]
  rw [if_neg (by simp [List.isEmpty_iff, hds] : ¬ (ds.isEmpty = true))]

/-- Branch-level computation of `parse_int` in terms of the `strtol`
result. -/
theorem parse_int_eval (s : List Char) (allow_unit : Bool) :
    parse_int s allow_unit
      = if (strtol10 s).converted = false then none
        else if allow_unit = true ∧ (strtol10 s).rest.head? = some 'k'
            ∧ Int.tdiv INT_MIN 1000 < (strtol10 s).value
            ∧ (strtol10 s).value < Int.tdiv INT_MAX 1000 then
          (if (strtol10 s).rest.tail = [] ∧ INT_MIN ≤ (strtol10 s).value * 1000
              ∧ (strtol10 s).value * 1000 ≤ INT_MAX
          then some ((strtol10 s).value * 1000) else none)
        else
          (if (strtol10 s).rest = [] ∧ INT_MIN ≤ (strtol10 s).value
              ∧ (strtol10 s).value ≤ INT_MAX
          then some (strtol10 s).value else none) := by
  by_cases hg : allow_unit = true ∧ (strtol10 s).rest.head? = some 'k'
      ∧ Int.tdiv INT_MIN 1000 < (strtol10 s).value
      ∧ (strtol10 s).value < Int.tdiv INT_MAX 1000
  · simp [parse_int, hg]
  · simp [parse_int, hg]

theorem parse_int_complete (s : List Char) (allow_unit : Bool) (v : Int)
    (h : AmendedParseSpec s allow_unit v) : parse_int s allow_unit = some v := by
  obtain ⟨w, sgn, ds, suffix, hseq, hw, hsgn, hds, hdig, hbr⟩ := h
  have hsfx : ∀ c, suffix.head? = some c → c.isDigit = false := by
    rcases hbr with ⟨hsuf, -⟩ | ⟨hsuf, -⟩ <;> subst hsuf
    · intro c hc
      simp at hc
    · intro c hc
      rw [List.head?_cons, Option.some_inj] at hc
      subst hc
      decide
  have hst := strtol10_decomp w sgn ds suffix hw hsgn hds hdig hsfx
  subst hseq
  rw [parse_int_eval, hst]
  rcases hbr with ⟨hsuf, hlo, hhi, hv⟩ | ⟨hsuf, hallow, hlo, hhi, hv⟩
  · subst hsuf
    subst hv
    rw [if_neg (by simp)]
    rw [if_neg (by rintro ⟨-, hh, -⟩; simp at hh)]
    exact if_pos ⟨rfl, hlo, hhi⟩
  · subst hsuf
    subst hallow
    subst hv
    rw [if_neg (by simp)]
    rw [if_pos ⟨rfl, rfl, hlo, hhi⟩]
    dsimp only
    have hconst1 : Int.tdiv INT_MIN 1000 = -2147483 := by decide
    have hconst2 : Int.tdiv INT_MAX 1000 = 2147483 := by decide
    rw [hconst1] at hlo
    rw [hconst2] at hhi
    refine if_pos ⟨rfl, ?_, ?_⟩
    · unfold INT_MIN
      omega
    · unfold INT_MAX
      omega

theorem parse_int_sound (s : List Char) (allow_unit : Bool) (v : Int)
    (h : parse_int s allow_unit = some v) : AmendedParseSpec s allow_unit v := by
  obtain ⟨sgn, s2, hsgn, hr1eq, hneg⟩ :
      ∃ sgn s2, (sgn = [] ∨ sgn = ['+'] ∨ sgn = ['-'])
        ∧ s.dropWhile isCSpace = sgn ++ s2
        ∧ signSplit (s.dropWhile isCSpace) = (decide (sgn = ['-']), s2) := by
    cases hr : s.dropWhile isCSpace with
    | nil => exact ⟨[], [], Or.inl rfl, rfl, by simp [signSplit]⟩
    | cons c r =>
        by_cases hc1 : c = '-'
        · subst hc1
          exact ⟨['-'], r, Or.inr (Or.inr rfl), rfl, by simp [signSplit]⟩
        · by_cases hc2 : c = '+'
          · subst hc2
            exact ⟨['+'], r, Or.inr (Or.inl rfl), rfl, by simp [signSplit]⟩
          · exact ⟨[], c :: r, Or.inl rfl, rfl, by simp [signSplit, hc1, hc2]⟩
  have hst : strtol10 s
      = if (s2.takeWhile Char.isDigit).isEmpty then ⟨0, s, false⟩
        else ⟨clampLong (decide (sgn = ['-']))
                (digitsToNat (s2.takeWhile Char.isDigit)),
              s2.dropWhile Char.isDigit, true⟩ := by
    simp only [strtol10, hneg]
  rw [parse_int_eval, hst] at h
  by_cases hds : (s2.takeWhile Char.isDigit).isEmpty
  · rw [if_pos hds] at h
    simp at h
  · rw [if_neg hds] at h
    rw [if_neg (by simp)] at h
    have hds' : s2.takeWhile Char.isDigit ≠ [] := by
      simpa [List.isEmpty_iff] using hds
    have hdig : ∀ c ∈ s2.takeWhile Char.isDigit, c.isDigit = true :=
      fun c hc => List.mem_takeWhile_imp hc
    have hsdecomp : s = s.takeWhile isCSpace ++ sgn
        ++ s2.takeWhile Char.isDigit ++ s2.dropWhile Char.isDigit := by
      conv_lhs => rw [← List.takeWhile_append_dropWhile (p := isCSpace) (l := s)]
      rw [hr1eq, ← List.takeWhile_append_dropWhile (p := Char.isDigit) (l := s2)]
      simp [List.append_assoc]
    have hwspace : ∀ c ∈ s.takeWhile isCSpace, isCSpace c = true :=
      fun c hc => List.mem_takeWhile_imp hc
    by_cases hk : allow_unit = true
        ∧ (s2.dropWhile Char.isDigit).head? = some 'k'
        ∧ Int.tdiv INT_MIN 1000
            < clampLong (decide (sgn = ['-'])) (digitsToNat (s2.takeWhile Char.isDigit))
        ∧ clampLong (decide (sgn = ['-'])) (digitsToNat (s2.takeWhile Char.isDigit))
            < Int.tdiv INT_MAX 1000
    · rw [if_pos hk] at h
      by_cases hfin : (s2.dropWhile Char.isDigit).tail = ([] : List Char)
          ∧ INT_MIN ≤ clampLong (decide (sgn = ['-']))
              (digitsToNat (s2.takeWhile Char.isDigit)) * 1000
          ∧ clampLong (decide (sgn = ['-']))
              (digitsToNat (s2.takeWhile Char.isDigit)) * 1000 ≤ INT_MAX
      · rw [if_pos hfin] at h
        have hv := Option.some_inj.mp h
        have hsfxk : s2.dropWhile Char.isDigit = ['k'] := by
          rcases hcase : s2.dropWhile Char.isDigit with - | ⟨a, r⟩
          · rw [hcase] at hk
            simp at hk
          · rw [hcase] at hk hfin
            have ha : a = 'k' := by
              have := hk.2.1
              rw [List.head?_cons, Option.some_inj] at this
              exact this
            have hr : r = [] := hfin.1
            rw [ha, hr]
        exact ⟨s.takeWhile isCSpace, sgn, s2.takeWhile Char.isDigit,
          s2.dropWhile Char.isDigit, hsdecomp, hwspace, hsgn, hds', hdig,
          Or.inr ⟨hsfxk, hk.1, hk.2.2.1, hk.2.2.2, hv.symm⟩⟩
      · rw [if_neg hfin] at h
        exact absurd h (by simp)
    · rw [if_neg hk] at h
      by_cases hfin : s2.dropWhile Char.isDigit = ([] : List Char)
          ∧ INT_MIN ≤ clampLong (decide (sgn = ['-']))
              (digitsToNat (s2.takeWhile Char.isDigit))
          ∧ clampLong (decide (sgn = ['-']))
              (digitsToNat (s2.takeWhile Char.isDigit)) ≤ INT_MAX
      · rw [if_pos hfin] at h
        have hv := Option.some_inj.mp h
        exact ⟨s.takeWhile isCSpace, sgn, s2.takeWhile Char.isDigit,
          s2.dropWhile Char.isDigit, hsdecomp, hwspace, hsgn, hds', hdig,
          Or.inl ⟨hfin.1, hfin.2.1, hfin.2.2, hv.symm⟩⟩
      · rw [if_neg hfin] at h
        exact absurd h (by simp)

/-- C10 counterexample: the input `"2147483k"` with `allow_unit = true` is
a decimal integer with a `'k'` suffix whose multiplied value 2147483000
fits in `int` - no overflow results - yet `parse_int` rejects it (the
code guards the suffix with the strict pre-multiplication bound
`t < INT_MAX / 1000`), returning false and leaving `v` unchanged. -/
theorem c10_parse_int_counterexample :
    parse_int ("2147483k".toList) true = none
    ∧ claimedParse ("2147483k".toList) true = some 2147483000
    ∧ parse_int_ref ("2147483k".toList) true 7 = (false, 7)
    ∧ INT_MIN ≤ (2147483000 : Int) ∧ (2147483000 : Int) ≤ INT_MAX := by
  refine ⟨by decide, by decide, by decide, by decide, by decide⟩

/-- C10 (amended): `parse_int(s, v, allow_unit)` returns true and stores
the parsed value in `v` exactly when `s` is - after optional leading C
whitespace and an optional single sign - a nonempty run of decimal digits
whose value, clamped to the `long` range, either ends the string and lies
within `int` range, or is followed by a final `'k'` when `allow_unit` is
true and the unmultiplied value lies strictly between `INT_MIN / 1000`
and `INT_MAX / 1000` (in which case `v` receives the value times 1000);
on every failing input it returns false and leaves `v` unchanged. -/
theorem c10_parse_int_amended :
    (∀ (s : List Char) (allow_unit : Bool) (v : Int),
      parse_int s allow_unit = some v ↔ AmendedParseSpec s allow_unit v)
    ∧ ∀ (s : List Char) (allow_unit : Bool) (v0 : Int),
      parse_int s allow_unit = none → parse_int_ref s allow_unit v0 = (false, v0) := by
  refine ⟨fun s allow v =>
    ⟨parse_int_sound s allow v, parse_int_complete s allow v⟩, ?_⟩
  intro s allow v0 h
  unfold parse_int_ref
  rw [h]

theorem c10_parse_int_amended_witness :
    (parse_int ("42".toList) false = some 42
      ↔ AmendedParseSpec ("42".toList) false 42)
    ∧ (parse_int ("x".toList) false = none →
        parse_int_ref ("x".toList) false 5 = (false, 5)) :=
  ⟨c10_parse_int_amended.1 ("42".toList) false 42,
    c10_parse_int_amended.2 ("x".toList) false 5⟩
